import Mathlib

set_option maxRecDepth 8192

/-!
Verification of the text-rendering core of the picolony repository:
a shallow embedding of `src/cache.rs`, `src/string.rs`,
`src/graphics/font.rs` and `src/graphics/drawables.rs`, together with
theorems checking the natural-language specification against it.

Modelling conventions:
* Machine integers become `Nat` (with explicit `% 2 ^ 16` where the
  source casts to `u16`); pixel coordinates (`i32`) become `Int`.
* Byte blobs become `List Nat` (each element intended `< 256`).
* Code that can panic (out-of-bounds indexing, `expect`, arithmetic
  overflow under checked semantics) is modelled with `Option`:
  a `none` result marks a panic.
-/

/-! ### Fixed-capacity cache (`src/cache.rs`)

`heapless::FnvIndexMap<K, usize, SIZE>` is modelled as an association
list with unique keys plus an explicit capacity at each insertion.
-/

/-- Modelling `FnvIndexMap::get`. -/
def imLookup {K : Type} [DecidableEq K] : List (K × Nat) → K → Option Nat
  | [], _ => none
  | (k, v) :: rest, key => if k = key then some v else imLookup rest key

/-- Modelling `FnvIndexMap::contains_key`. -/
def imContains {K : Type} [DecidableEq K] (l : List (K × Nat)) (key : K) : Bool :=
  (imLookup l key).isSome

/-- Modelling `FnvIndexMap::remove` (keys are unique in reachable states,
so removing the first occurrence is the map-level behaviour). -/
def imRemove {K : Type} [DecidableEq K] : List (K × Nat) → K → List (K × Nat)
  | [], _ => []
  | (k, v) :: rest, key => if k = key then rest else (k, v) :: imRemove rest key

/-- Modelling `FnvIndexMap::insert` with capacity `cap`: replaces the value
of a present key, appends an absent key when room is left, and reports
failure (`none`) when the map is full and the key absent. -/
def imInsert {K : Type} [DecidableEq K] (cap : Nat) (l : List (K × Nat)) (key : K)
    (idx : Nat) : Option (List (K × Nat)) :=
  if imContains l key then
    some (l.map (fun p => if p.1 = key then (key, idx) else p))
  else if l.length < cap then
    some (l ++ [(key, idx)])
  else
    none

/-- Structure `SimpleCacheMap<K, V, SIZE>` from `src/cache.rs`. The const generic
`SIZE` is kept as the `size` field; `data` has length `size` for states
built by `SimpleCacheMap.new`. -/
structure SimpleCacheMap (K V : Type) where
  index_map : List (K × Nat)
  data : List (K × V)
  cursor : Nat
  size : Nat
deriving DecidableEq

/-- Models `SimpleCacheMap::new`; `k0`/`v0` stand for `K::default()`/`V::default()`. -/
def SimpleCacheMap.new {K V : Type} (k0 : K) (v0 : V) (SIZE : Nat) :
    SimpleCacheMap K V :=
  { index_map := [], data := List.replicate SIZE (k0, v0), cursor := 0, size := SIZE }

/-- Models `SimpleCacheMap::get`. -/
def SimpleCacheMap.get {K V : Type} [DecidableEq K] (m : SimpleCacheMap K V) (key : K) :
    Option V :=
  match imLookup m.index_map key with
  | none => none
  | some i => (m.data.get? i).map (fun kv => kv.2)

/-- Models `SimpleCacheMap::put`. A `none` result is a panic: either the read
`self.data[self.cursor]` is out of bounds, or the `insert(...).expect(...)`
fails. Note the source advances `cursor` by `+= 1` with no wrap. -/
def SimpleCacheMap.put {K V : Type} [DecidableEq K] (m : SimpleCacheMap K V)
    (key : K) (value : V) : Option (SimpleCacheMap K V × V) :=
  match m.data.get? m.cursor with
  | none => none
  | some rkv =>
    let im := if imContains m.index_map rkv.1 then imRemove m.index_map rkv.1
              else m.index_map
    match imInsert m.size im key m.cursor with
    | none => none
    | some im2 =>
      some ({ m with index_map := im2,
                     data := m.data.set m.cursor (key, value),
                     cursor := m.cursor + 1 }, value)

/-- Models `SimpleCacheMap::get_or_else`. -/
def SimpleCacheMap.get_or_else {K V : Type} [DecidableEq K] (m : SimpleCacheMap K V)
    (key : K) (gen : K → Option V) : Option (Option V × SimpleCacheMap K V) :=
  match imLookup m.index_map key with
  | some index =>
    match m.data.get? index with
    | none => none
    | some kv => some (some kv.2, m)
  | none =>
    match gen key with
    | none => some (none, m)
    | some v =>
      match m.put key v with
      | none => none
      | some (m2, r) => some (some r, m2)

/-- Folding `put` over a list of insertions, propagating panics. -/
def SimpleCacheMap.putMany {K V : Type} [DecidableEq K] :
    SimpleCacheMap K V → List (K × V) → Option (SimpleCacheMap K V)
  | m, [] => some m
  | m, (k, v) :: rest =>
    match m.put k v with
    | none => none
    | some (m2, _) => m2.putMany rest

/-! ### Unicode-to-JIS codepoint table (`src/string.rs`) -/

/-- Constant `JIS_KUTEN_WIDTH` from `src/string.rs`. -/
def JIS_KUTEN_WIDTH : Nat := 94

/-- Little-endian `u16` read of two consecutive bytes, as in
`u16::from_le_bytes([l[i], l[i+1]])`. -/
def leU16 (l : List Nat) (i : Nat) : Nat :=
  l.getD i 0 + 256 * l.getD (i + 1) 0

/-- Fuelled trailing-zero count; `tzAux w n = w` when `n = 0`, matching
Rust's `usize::trailing_zeros` on a `w`-bit word. -/
def tzAux : Nat → Nat → Nat
  | 0, _ => 0
  | fuel + 1, n => if n % 2 = 1 then 0 else tzAux fuel (n / 2) + 1

/-- Models `usize::trailing_zeros` on the 32-bit embedded target. -/
def trailingZerosUsize (n : Nat) : Nat := tzAux 32 n

/-- Error type `Uni2JisTableError` from `src/string.rs`. -/
inductive Uni2JisTableError where
  | insufficientSize
  | incorrectData
deriving DecidableEq

/-- Structure `Unicode2JisTable` from `src/string.rs`. -/
structure Unicode2JisTable where
  chain_indices : List Nat
  table_elements : List Nat
  chain_length_bit : Nat
  elements_count : Nat
deriving DecidableEq

/-- Models `Unicode2JisTable::new`. The outer `none` is a panic: when the header's
`chain_length` is zero, `trailing_zeros` is the word width 32 and the shift
`0x10000 >> 32` overflows, a panic under Rust's checked arithmetic (release
builds mask the shift amount instead and expect 0x10000 chain entries). -/
def Unicode2JisTable.new (table_bytes : List Nat) :
    Option (Except Uni2JisTableError Unicode2JisTable) :=
  if table_bytes.length < 4 then
    some (Except.error Uni2JisTableError.insufficientSize)
  else
    let chain_length := table_bytes.getD 0 0 + 256 * table_bytes.getD 1 0
    let elements_count := table_bytes.getD 2 0 + 256 * table_bytes.getD 3 0
    let chain_length_bit := trailingZerosUsize chain_length
    if chain_length_bit < 32 then
      let chains_count := 0x10000 >>> chain_length_bit
      let expected_size := 4 + chains_count * 2 + elements_count * 4
      if table_bytes.length ≠ expected_size then
        some (Except.error Uni2JisTableError.incorrectData)
      else
        some (Except.ok
          { chain_indices := (table_bytes.drop 4).take (chains_count * 2)
            table_elements := table_bytes.drop (4 + chains_count * 2)
            chain_length_bit := chain_length_bit
            elements_count := elements_count })
    else
      none

/-- Codepoint of the element at index `i` (`u16::from_le_bytes` of the
first two bytes of the 4-byte record). -/
def Unicode2JisTable.elemChar (t : Unicode2JisTable) (i : Nat) : Nat :=
  leU16 t.table_elements (i * 4)

/-- Kuten pair of the element at index `i` (bytes 2 and 3 of the record). -/
def Unicode2JisTable.elemKuten (t : Unicode2JisTable) (i : Nat) : Nat × Nat :=
  (t.table_elements.getD (i * 4 + 2) 0, t.table_elements.getD (i * 4 + 3) 0)

/-- The `chain_start` of the bucket holding the (truncated) codepoint `c16`. -/
def Unicode2JisTable.chainStart (t : Unicode2JisTable) (c16 : Nat) : Nat :=
  leU16 t.chain_indices ((c16 >>> t.chain_length_bit) * 2)

/-- The `chain_end` of that bucket: next bucket boundary clamped to the element
count. -/
def Unicode2JisTable.chainEnd (t : Unicode2JisTable) (c16 : Nat) : Nat :=
  min (t.chainStart c16 + (1 <<< t.chain_length_bit)) t.elements_count

/-- The in-bucket linear scan of `Unicode2JisTable::query`, reading element
`i` and `fuel` further ones: skip while the element codepoint is below `c`,
return the kuten on equality, stop with `none` on the first larger one. -/
def scanChain (elems : List Nat) (c : Nat) : Nat → Nat → Option (Nat × Nat)
  | _, 0 => none
  | i, fuel + 1 =>
    let element_char := leU16 elems (i * 4)
    if element_char < c then scanChain elems c (i + 1) fuel
    else if c = element_char then
      some (elems.getD (i * 4 + 2) 0, elems.getD (i * 4 + 3) 0)
    else none

/-- Models `Unicode2JisTable::query`; the source truncates the char with `c as u16`. -/
def Unicode2JisTable.query (t : Unicode2JisTable) (c : Nat) : Option (Nat × Nat) :=
  let c16 := c % 65536
  scanChain t.table_elements c16 (t.chainStart c16) (t.chainEnd c16 - t.chainStart c16)

/-- Bounds-checked variant of the in-bucket scan: `none` when the element
slice `[(i*4)..((i+1)*4)]` would be out of bounds (a Rust panic). -/
def scanChainChecked (elems : List Nat) (c : Nat) : Nat → Nat → Option (Option (Nat × Nat))
  | _, 0 => some none
  | i, fuel + 1 =>
    if (i + 1) * 4 ≤ elems.length then
      let element_char := leU16 elems (i * 4)
      if element_char < c then scanChainChecked elems c (i + 1) fuel
      else if c = element_char then
        some (some (elems.getD (i * 4 + 2) 0, elems.getD (i * 4 + 3) 0))
      else some none
    else none

/-- Bounds-checked variant of `query`: `none` when any byte access of the
query would be out of bounds (a Rust panic), otherwise `some` of the
result of the scan. -/
def Unicode2JisTable.queryChecked (t : Unicode2JisTable) (c : Nat) :
    Option (Option (Nat × Nat)) :=
  let c16 := c % 65536
  if (c16 >>> t.chain_length_bit) * 2 + 1 < t.chain_indices.length then
    scanChainChecked t.table_elements c16 (t.chainStart c16)
      (t.chainEnd c16 - t.chainStart c16)
  else none

/-! ### Font and glyph cache integration (`src/graphics/font.rs`) -/

/-- Models `JisFont::query`: `get_or_else` on the glyph cache keyed by
`draw_char as u16`, generating on a miss by table lookup then fetch.
The glyph format interface `I` is abstracted by the glyph type `G` and
the `fetchG` function; `none` is a cache panic. -/
def JisFont.query {G : Type} (t : Unicode2JisTable) (bitmap : List Nat)
    (fetchG : List Nat → Nat × Nat → G) (cache : SimpleCacheMap Nat G) (c : Nat) :
    Option (Option G × SimpleCacheMap Nat G) :=
  cache.get_or_else (c % 65536) (fun _ => (t.query c).map (fetchG bitmap))

/-- Constant `JisFont8x12::WIDTH`. -/
def JisFont8x12.WIDTH : Nat := 8

/-- Constant `JisFont8x12::HEIGHT`. -/
def JisFont8x12.HEIGHT : Nat := 12

/-- Models `JisFont8x12::validate_bitmap`. -/
def JisFont8x12.validate_bitmap (bitmap : List Nat) : Bool :=
  bitmap.length == JIS_KUTEN_WIDTH * JIS_KUTEN_WIDTH * 12

/-- Models `JisFont8x12::fetch`: copies the 12-byte glyph slice at
`((ku-1)*94 + (ten-1)) * 12`; `none` is the out-of-bounds slice panic. -/
def JisFont8x12.fetch (bitmap : List Nat) (kuten : Nat × Nat) : Option (List Nat) :=
  let base_index := (kuten.1 - 1) * JIS_KUTEN_WIDTH + (kuten.2 - 1)
  if (base_index + 1) * 12 ≤ bitmap.length then
    some ((bitmap.drop (base_index * 12)).take 12)
  else
    none

/-! ### Text layout and drawing (`src/graphics/drawables.rs`)

The glyph source interface is abstracted by a glyph type `G`, the glyph
pixel size `W × H`, and a stateful query
`q : σ → Char → Option (Option G × σ)` standing for
`font_cache.query(draw_char)` (with `σ` the font cache state and the
outer `none` a panic).  The draw target is modelled as the accumulated
list of `I::draw` calls `(glyph, x, y)`.
-/

/-- Helper for `str::lines`: split a char list at every line feed. The result
is always non-empty. -/
def splitNl : List Char → List (List Char)
  | [] => [[]]
  | c :: rest =>
    let parts := splitNl rest
    if c = '\n' then [] :: parts
    else
      match parts with
      | [] => [[c]]
      | p :: ps => (c :: p) :: ps

/-- Helper for `str::lines`: drop one trailing carriage return (applied to the
pieces that were terminated by a line feed). -/
def stripCR (l : List Char) : List Char :=
  if l.getLast? = some '\r' then l.dropLast else l

/-- Rust's `str::lines`: split at `\n`, strip a `\r` before each split
point, and do not yield a final empty line for a trailing terminator. -/
def rustLines (s : List Char) : List (List Char) :=
  let parts := splitNl s
  let main := parts.dropLast.map stripCR
  match parts.getLast? with
  | some [] => main
  | some last => main ++ [last]
  | none => main

/-- Loop state of `<JisText as Drawable>::draw`: the borrowed font cache,
the running layout registers, and the accumulated draw-target calls. -/
structure TextLayoutState (G σ : Type) where
  fontSt : σ
  max_relx : Int
  relx : Int
  rely : Int
  chars_in_line : Nat
  draws : List (G × Int × Int)
deriving DecidableEq

/-- The inner character loop of `<JisText as Drawable>::draw`: skip
unmapped characters, record the `I::draw` call at the running offset,
advance `relx` by `WIDTH`, and apply character-count wrapping. -/
def JisText.drawChars {G σ : Type} (W H : Nat) (q : σ → Char → Option (Option G × σ))
    (wrap : Option Nat) (ox oy : Int) :
    List Char → TextLayoutState G σ → Option (TextLayoutState G σ)
  | [], s => some s
  | ch :: rest, s =>
    match q s.fontSt ch with
    | none => none
    | some (none, fs) => JisText.drawChars W H q wrap ox oy rest { s with fontSt := fs }
    | some (some g, fs) =>
      let s1 : TextLayoutState G σ :=
        { s with fontSt := fs,
                 draws := s.draws ++ [(g, ox + s.relx, oy + s.rely)],
                 relx := s.relx + (W : Int) }
      let s2 : TextLayoutState G σ :=
        match wrap with
        | none => s1
        | some w =>
          if w ≤ s1.chars_in_line + 1 then
            { s1 with max_relx := max s1.max_relx s1.relx, relx := 0,
                      rely := s1.rely + (H : Int), chars_in_line := 0 }
          else
            { s1 with chars_in_line := s1.chars_in_line + 1 }
      JisText.drawChars W H q wrap ox oy rest s2

/-- The outer line loop of `<JisText as Drawable>::draw`: after each input
line, fold `relx` into `max_relx`, reset `relx` and the wrap counter, and
advance `rely` by `HEIGHT`. -/
def JisText.drawLines {G σ : Type} (W H : Nat) (q : σ → Char → Option (Option G × σ))
    (wrap : Option Nat) (ox oy : Int) :
    List (List Char) → TextLayoutState G σ → Option (TextLayoutState G σ)
  | [], s => some s
  | line :: rest, s =>
    match JisText.drawChars W H q wrap ox oy line s with
    | none => none
    | some s1 =>
      JisText.drawLines W H q wrap ox oy rest
        { s1 with max_relx := max s1.max_relx s1.relx, relx := 0,
                  rely := s1.rely + (H : Int), chars_in_line := 0 }

/-- Models `<JisText as Drawable>::draw`: run the layout over `text.lines()`
starting from zeroed registers and return
`(max_relx as usize, rely as usize)`, the draw calls, and the final
font-cache state. -/
def JisText.draw {G σ : Type} (W H : Nat) (q : σ → Char → Option (Option G × σ))
    (wrap : Option Nat) (ox oy : Int) (text : List Char) (fontSt : σ) :
    Option ((Nat × Nat) × List (G × Int × Int) × σ) :=
  match JisText.drawLines W H q wrap ox oy (rustLines text)
      { fontSt := fontSt, max_relx := 0, relx := 0, rely := 0,
        chars_in_line := 0, draws := [] } with
  | none => none
  | some s => some ((s.max_relx.toNat, s.rely.toNat), s.draws, s.fontSt)

/-- Persistent state of a `JisTextDirect`: the font cache, the streaming
layout registers `relx`/`rely`/`chars_in_line`, and the draw target. -/
structure DirectState (G σ : Type) where
  fontSt : σ
  relx : Int
  rely : Int
  chars_in_line : Nat
  draws : List (G × Int × Int)
deriving DecidableEq

/-- The inner character loop of `<JisTextDirect as Write>::write_str`. -/
def JisTextDirect.writeChars {G σ : Type} (W H : Nat)
    (q : σ → Char → Option (Option G × σ)) (wrap : Option Nat) (ox oy : Int) :
    List Char → DirectState G σ → Option (DirectState G σ)
  | [], s => some s
  | ch :: rest, s =>
    match q s.fontSt ch with
    | none => none
    | some (none, fs) => JisTextDirect.writeChars W H q wrap ox oy rest { s with fontSt := fs }
    | some (some g, fs) =>
      let s1 : DirectState G σ :=
        { s with fontSt := fs,
                 draws := s.draws ++ [(g, ox + s.relx, oy + s.rely)],
                 relx := s.relx + (W : Int) }
      let s2 : DirectState G σ :=
        match wrap with
        | none => s1
        | some w =>
          if w ≤ s1.chars_in_line + 1 then
            { s1 with relx := 0, rely := s1.rely + (H : Int), chars_in_line := 0 }
          else
            { s1 with chars_in_line := s1.chars_in_line + 1 }
      JisTextDirect.writeChars W H q wrap ox oy rest s2

/-- The outer line loop of `write_str`: after every line of the call's
input (including the last one, line break present or not) reset `relx`
and the wrap counter and advance `rely` by `HEIGHT`. -/
def JisTextDirect.writeLines {G σ : Type} (W H : Nat)
    (q : σ → Char → Option (Option G × σ)) (wrap : Option Nat) (ox oy : Int) :
    List (List Char) → DirectState G σ → Option (DirectState G σ)
  | [], s => some s
  | line :: rest, s =>
    match JisTextDirect.writeChars W H q wrap ox oy line s with
    | none => none
    | some s1 =>
      JisTextDirect.writeLines W H q wrap ox oy rest
        { s1 with relx := 0, rely := s1.rely + (H : Int), chars_in_line := 0 }

/-- Models `<JisTextDirect as Write>::write_str`. -/
def JisTextDirect.write_str {G σ : Type} (W H : Nat)
    (q : σ → Char → Option (Option G × σ)) (wrap : Option Nat) (ox oy : Int)
    (s : List Char) (st : DirectState G σ) : Option (DirectState G σ) :=
  JisTextDirect.writeLines W H q wrap ox oy (rustLines s) st

/-! ### Concrete instances used by witnesses and counterexamples -/

/-- A well-formed table blob: `chain_length = 0x8000`, two elements,
mapping U+0041 to kuten (1,1) and U+0042 to kuten (1,2). -/
def blob16 : List Nat := [0, 128, 2, 0, 0, 0, 2, 0, 65, 0, 1, 1, 66, 0, 1, 2]

/-- The table parsed from `blob16`. -/
def t16 : Unicode2JisTable :=
  { chain_indices := [0, 0, 2, 0], table_elements := [65, 0, 1, 1, 66, 0, 1, 2],
    chain_length_bit := 15, elements_count := 2 }

/-- A minimal well-formed table blob: `chain_length = 0x8000`, no elements. -/
def blob8 : List Nat := [0, 128, 0, 0, 0, 0, 0, 0]

/-- The table parsed from `blob8`. -/
def t8 : Unicode2JisTable :=
  { chain_indices := [0, 0, 0, 0], table_elements := [],
    chain_length_bit := 15, elements_count := 0 }

/-- An always-hitting glyph query over trivial state, for layout witnesses. -/
def unitQ : Unit → Char → Option (Option Unit × Unit) := fun _ _ => some (some (), ())

/-- An always-missing glyph query over trivial state. -/
def unitMissQ : Unit → Char → Option (Option Unit × Unit) := fun _ _ => some (none, ())

/-- A fresh streaming-mode state at offset `(0, 0)`. -/
def d0 : DirectState Unit Unit :=
  { fontSt := (), relx := 0, rely := 0, chars_in_line := 0, draws := [] }

/-- The header's `chain_length` field (little-endian bytes 0 and 1). -/
def headerChainLength (bs : List Nat) : Nat := bs.getD 0 0 + 256 * bs.getD 1 0

/-- The header's `elements_count` field (little-endian bytes 2 and 3). -/
def headerElementsCount (bs : List Nat) : Nat := bs.getD 2 0 + 256 * bs.getD 3 0

/-- The total length `Unicode2JisTable::new` expects:
`4 + chains_count * 2 + elements_count * 4`. -/
def expectedTableSize (bs : List Nat) : Nat :=
  4 + (0x10000 >>> trailingZerosUsize (headerChainLength bs)) * 2
    + headerElementsCount bs * 4

/-- The table value `Unicode2JisTable::new` builds on success. -/
def parsedTable (bs : List Nat) : Unicode2JisTable :=
  { chain_indices :=
      (bs.drop 4).take ((0x10000 >>> trailingZerosUsize (headerChainLength bs)) * 2)
    table_elements :=
      bs.drop (4 + (0x10000 >>> trailingZerosUsize (headerChainLength bs)) * 2)
    chain_length_bit := trailingZerosUsize (headerChainLength bs)
    elements_count := headerElementsCount bs }

/-! ### Lemmas and claim theorems -/

lemma SimpleCacheMap.put_cursor_succ {K V : Type} [DecidableEq K]
    {m m2 : SimpleCacheMap K V} {k : K} {v r : V} (h : m.put k v = some (m2, r)) :
    m2.cursor = m.cursor + 1 ∧ m2.data.length = m.data.length := by
  unfold SimpleCacheMap.put at h
  cases hg : m.data.get? m.cursor with
  | none => rw [hg] at h; simp at h
  | some rkv =>
    rw [hg] at h
    simp only at h
    cases hi : imInsert m.size
        (if imContains m.index_map rkv.1 then imRemove m.index_map rkv.1
         else m.index_map) k m.cursor with
    | none => rw [hi] at h; simp at h
    | some im2 =>
      rw [hi] at h
      simp only [Option.some.injEq, Prod.mk.injEq] at h
      obtain ⟨hm2, _⟩ := h
      subst hm2
      simp [List.length_set]

lemma SimpleCacheMap.put_none_of_cursor_ge {K V : Type} [DecidableEq K]
    {m : SimpleCacheMap K V} (k : K) (v : V) (h : m.data.length ≤ m.cursor) :
    m.put k v = none := by
  unfold SimpleCacheMap.put
  have : m.data.get? m.cursor = none := List.get?_eq_none.mpr h
  rw [this]

lemma SimpleCacheMap.putMany_none_aux {K V : Type} [DecidableEq K] :
    ∀ (kvs : List (K × V)) (m : SimpleCacheMap K V), kvs ≠ [] →
      m.data.length ≤ m.cursor + (kvs.length - 1) → m.putMany kvs = none := by
  intro kvs
  induction kvs with
  | nil => intro m hne _; exact absurd rfl hne
  | cons kv rest ih =>
    intro m _ hlen
    by_cases hc : m.data.length ≤ m.cursor
    · unfold SimpleCacheMap.putMany
      rw [SimpleCacheMap.put_none_of_cursor_ge kv.1 kv.2 hc]
    · push_neg at hc
      unfold SimpleCacheMap.putMany
      cases hput : m.put kv.1 kv.2 with
      | none => rfl
      | some res =>
        obtain ⟨hcur, hdat⟩ := SimpleCacheMap.put_cursor_succ
          (show m.put kv.1 kv.2 = some (res.1, res.2) by rw [hput])
        have hrest : rest ≠ [] := by
          intro hr
          subst hr
          simp at hlen
          omega
        have : res.1.data.length ≤ res.1.cursor + (rest.length - 1) := by
          rw [hcur, hdat]
          have hrl : 1 ≤ rest.length := by
            cases rest with
            | nil => exact absurd rfl hrest
            | cons a b => simp
          simp only [List.length_cons] at hlen
          omega
        exact ih res.1 hrest this

/-- C1: the claim says `put` always succeeds for capacity `N ≥ 1`, advancing
the write cursor modulo capacity so that the `(N+1)`-th and all later
insertions are well-defined. The code increments `cursor` without a modulo,
so the `(N+1)`-th insertion reads `self.data[self.cursor]` out of bounds
and panics: any sequence of at least `SIZE + 1` insertions into a fresh
cache panics (`none`), contradicting the spec's ring behaviour. -/
theorem SimpleCacheMap.putMany_overflow_panics {K V : Type} [DecidableEq K]
    (k0 : K) (v0 : V) (SIZE : Nat) (kvs : List (K × V))
    (h : SIZE + 1 ≤ kvs.length) :
    (SimpleCacheMap.new k0 v0 SIZE).putMany kvs = none := by
  apply SimpleCacheMap.putMany_none_aux
  · intro hk
    subst hk
    simp at h
  · simp only [SimpleCacheMap.new, List.length_replicate]
    omega

/-- C1 witness: a capacity-1 cache panics on its second insertion. -/
theorem SimpleCacheMap.putMany_overflow_panics_witness :
    (SimpleCacheMap.new (0 : Nat) (0 : Nat) 1).putMany [(1, 10), (2, 20)] = none :=
  SimpleCacheMap.putMany_overflow_panics 0 0 1 [(1, 10), (2, 20)] (by decide)

/-- C6: `get_or_else` leaves the cache (index map, data array and cursor)
untouched and returns `None` when the key is absent and the generator
yields no value; on a hit it returns the cached value, again leaving the
state untouched, and its result does not depend on the generator at all. -/
theorem SimpleCacheMap.get_or_else_no_mutation {K V : Type} [DecidableEq K]
    (m : SimpleCacheMap K V) (key : K) (gen : K → Option V) :
    (imLookup m.index_map key = none → gen key = none →
      m.get_or_else key gen = some (none, m))
    ∧ (∀ i kv, imLookup m.index_map key = some i → m.data.get? i = some kv →
        m.get_or_else key gen = some (some kv.2, m)
        ∧ ∀ gen2 : K → Option V, m.get_or_else key gen = m.get_or_else key gen2) := by
  constructor
  · intro hmiss hgen
    unfold SimpleCacheMap.get_or_else
    rw [hmiss, hgen]
  · intro i kv hhit hdata
    have hres : m.get_or_else key gen = some (some kv.2, m) := by
      unfold SimpleCacheMap.get_or_else
      rw [hhit]
      simp only [hdata]
    refine ⟨hres, fun gen2 => ?_⟩
    have hres2 : m.get_or_else key gen2 = some (some kv.2, m) := by
      unfold SimpleCacheMap.get_or_else
      rw [hhit]
      simp only [hdata]
    rw [hres, hres2]

/-- C6 witness: a concrete two-slot cache holding key 5 with value 7. -/
theorem SimpleCacheMap.get_or_else_no_mutation_witness :
    (SimpleCacheMap.mk [(5, 0)] [(5, 7), (0, 0)] 1 2).get_or_else 5
        (fun _ => some (99 : Nat)) = some (some 7, SimpleCacheMap.mk [(5, 0)] [(5, 7), (0, 0)] 1 2)
    ∧ (SimpleCacheMap.mk [(5, 0)] [(5, 7), (0, 0)] 1 2).get_or_else 9
        (fun _ => (none : Option Nat)) = some (none, SimpleCacheMap.mk [(5, 0)] [(5, 7), (0, 0)] 1 2) :=
  ⟨((SimpleCacheMap.get_or_else_no_mutation
        (SimpleCacheMap.mk [(5, 0)] [(5, 7), (0, 0)] 1 2) 5
        (fun _ => some (99 : Nat))).2 0 (5, 7) (by decide) (by decide)).1,
   (SimpleCacheMap.get_or_else_no_mutation
        (SimpleCacheMap.mk [(5, 0)] [(5, 7), (0, 0)] 1 2) 9
        (fun _ => (none : Option Nat))).1 (by decide) rfl⟩

lemma tzAux_zero : ∀ fuel, tzAux fuel 0 = fuel := by
  intro fuel
  induction fuel with
  | zero => rfl
  | succ n ih => simp [tzAux, ih]

lemma tzAux_lt : ∀ fuel n, n ≠ 0 → n < 2 ^ fuel → tzAux fuel n < fuel := by
  intro fuel
  induction fuel with
  | zero =>
    intro n hn hlt
    simp at hlt
    omega
  | succ f ih =>
    intro n hn hlt
    by_cases hodd : n % 2 = 1
    · simp [tzAux, hodd]
    · have hhalf : n / 2 ≠ 0 := by omega
      have hhlt : n / 2 < 2 ^ f := by
        rw [pow_succ] at hlt
        omega
      simp only [tzAux, hodd, if_false]
      have := ih (n / 2) hhalf hhlt
      omega

lemma Unicode2JisTable.new_eq (bs : List Nat) :
    Unicode2JisTable.new bs =
      if bs.length < 4 then some (Except.error Uni2JisTableError.insufficientSize)
      else if trailingZerosUsize (headerChainLength bs) < 32 then
        if bs.length ≠ expectedTableSize bs then
          some (Except.error Uni2JisTableError.incorrectData)
        else
          some (Except.ok (parsedTable bs))
      else none := rfl

lemma getD_lt_of_bytes {bs : List Nat} (hb : ∀ b ∈ bs, b < 256) (i : Nat) :
    bs.getD i 0 < 256 := by
  by_cases h : i < bs.length
  · have hm : bs.getD i 0 ∈ bs := by
      rw [List.getD_eq_get?]
      rw [List.get?_eq_get h]
      exact List.get_mem bs i h
    exact hb _ hm
  · push_neg at h
    rw [List.getD_eq_get?, List.get?_eq_none.mpr h]
    simp

lemma headerChainLength_lt {bs : List Nat} (hb : ∀ b ∈ bs, b < 256) :
    headerChainLength bs < 65536 := by
  have h0 := getD_lt_of_bytes hb 0
  have h1 := getD_lt_of_bytes hb 1
  unfold headerChainLength
  omega

lemma tzAux_pow_dvd : ∀ fuel n, n < 2 ^ fuel → 2 ^ tzAux fuel n ∣ n := by
  intro fuel
  induction fuel with
  | zero =>
    intro n hlt
    simp at hlt
    simp [hlt]
  | succ f ih =>
    intro n hlt
    by_cases hodd : n % 2 = 1
    · simp [tzAux, hodd]
    · have hdiv : n / 2 < 2 ^ f := by
        rw [pow_succ] at hlt
        omega
      obtain ⟨k, hk⟩ := ih (n / 2) hdiv
      simp only [tzAux, hodd, if_false]
      refine ⟨k, ?_⟩
      calc n = 2 * (n / 2) := by omega
        _ = 2 * (2 ^ tzAux f (n / 2) * k) := congrArg (fun x => 2 * x) hk
        _ = 2 ^ (tzAux f (n / 2) + 1) * k := by ring

lemma trailingZeros_le_15 {n : Nat} (hnz : n ≠ 0) (hlt : n < 65536) :
    trailingZerosUsize n ≤ 15 := by
  have hdvd : 2 ^ trailingZerosUsize n ∣ n :=
    tzAux_pow_dvd 32 n (by norm_num; omega)
  have hle : 2 ^ trailingZerosUsize n ≤ n := Nat.le_of_dvd (by omega) hdvd
  by_contra hgt
  push_neg at hgt
  have : (2 : Nat) ^ 16 ≤ 2 ^ trailingZerosUsize n :=
    Nat.pow_le_pow_right (by norm_num) hgt
  norm_num at this
  omega

lemma trailingZeros_lt_32 {n : Nat} (hnz : n ≠ 0) (hlt : n < 65536) :
    trailingZerosUsize n < 32 := by
  have := trailingZeros_le_15 hnz hlt
  omega

lemma chains_count_ge_two {n : Nat} (hnz : n ≠ 0) (hlt : n < 65536) :
    2 ≤ 0x10000 >>> trailingZerosUsize n := by
  have h15 := trailingZeros_le_15 hnz hlt
  rw [Nat.shiftRight_eq_div_pow]
  have hle : 2 ^ trailingZerosUsize n ≤ 2 ^ 15 :=
    Nat.pow_le_pow_right (by norm_num) h15
  have hpos : 0 < 2 ^ trailingZerosUsize n := Nat.pos_pow_of_pos _ (by norm_num)
  have : (2 : Nat) ^ 15 * 2 ≤ 0x10000 := by norm_num
  calc 2 = 2 ^ trailingZerosUsize n * 2 / 2 ^ trailingZerosUsize n := by
        rw [Nat.mul_div_cancel_left _ hpos]
    _ ≤ 0x10000 / 2 ^ trailingZerosUsize n := by
        apply Nat.div_le_div_right
        calc 2 ^ trailingZerosUsize n * 2 ≤ 2 ^ 15 * 2 := by
              exact Nat.mul_le_mul_right 2 hle
          _ ≤ 0x10000 := this

/-- C5 (amended): `new` returns `InsufficientSize` exactly on fewer than 4
header bytes; for a nonzero `chain_length` it returns `IncorrectData`
exactly when the length differs from
`4 + (0x10000 >> trailing_zeros(chain_length)) * 2 + elements_count * 4`
and succeeds otherwise — in particular perturbing a well-formed blob's
length by one byte in either direction while keeping the header yields
`IncorrectData`.  But for a zero `chain_length` field the shift
`0x10000 >> 32` overflows and construction panics instead of returning. -/
theorem Unicode2JisTable.new_size_checks (bs : List Nat) (hb : ∀ b ∈ bs, b < 256) :
    (Unicode2JisTable.new bs = some (Except.error Uni2JisTableError.insufficientSize)
      ↔ bs.length < 4)
    ∧ (4 ≤ bs.length → headerChainLength bs ≠ 0 →
        (Unicode2JisTable.new bs = some (Except.error Uni2JisTableError.incorrectData)
          ↔ bs.length ≠ expectedTableSize bs)
        ∧ (bs.length = expectedTableSize bs →
            ∃ t, Unicode2JisTable.new bs = some (Except.ok t)))
    ∧ (4 ≤ bs.length → headerChainLength bs = 0 → Unicode2JisTable.new bs = none)
    ∧ (∀ bs2 : List Nat, (∀ i, i < 4 → bs2.getD i 0 = bs.getD i 0) →
        (bs2.length = bs.length + 1 ∨ bs2.length + 1 = bs.length) →
        (∃ t, Unicode2JisTable.new bs = some (Except.ok t)) →
        headerChainLength bs ≠ 0 →
        Unicode2JisTable.new bs2 = some (Except.error Uni2JisTableError.incorrectData)) := by
  have hcl := headerChainLength_lt hb
  refine ⟨?_, ?_, ?_, ?_⟩
  · constructor
    · intro h
      by_contra h4
      push_neg at h4
      rw [Unicode2JisTable.new_eq] at h
      rw [if_neg (by omega)] at h
      by_cases htz : trailingZerosUsize (headerChainLength bs) < 32
      · rw [if_pos htz] at h
        by_cases hsz : bs.length ≠ expectedTableSize bs
        · rw [if_pos hsz] at h
          simp at h
        · rw [if_neg hsz] at h
          simp at h
      · rw [if_neg htz] at h
        simp at h
    · intro h
      rw [Unicode2JisTable.new_eq, if_pos h]
  · intro h4 hnz
    have htz := trailingZeros_lt_32 hnz hcl
    constructor
    · constructor
      · intro h
        by_cases hsz : bs.length = expectedTableSize bs
        · exfalso
          rw [Unicode2JisTable.new_eq, if_neg (by omega), if_pos htz,
            if_neg (fun hc => hc hsz)] at h
          simp at h
        · exact hsz
      · intro hsz
        rw [Unicode2JisTable.new_eq, if_neg (by omega), if_pos htz, if_pos hsz]
    · intro hsz
      refine ⟨parsedTable bs, ?_⟩
      rw [Unicode2JisTable.new_eq, if_neg (by omega), if_pos htz,
        if_neg (fun hc => hc hsz)]
  · intro h4 hz
    rw [Unicode2JisTable.new_eq, if_neg (by omega)]
    rw [if_neg ?_]
    rw [hz]
    unfold trailingZerosUsize
    rw [tzAux_zero]
    omega
  · intro bs2 hsame hlen hok hnz
    have htz := trailingZeros_lt_32 hnz hcl
    obtain ⟨t, ht⟩ := hok
    have hexp : bs.length = expectedTableSize bs := by
      by_contra hne
      rw [Unicode2JisTable.new_eq] at ht
      by_cases h4 : bs.length < 4
      · rw [if_pos h4] at ht
        simp at ht
      · rw [if_neg h4, if_pos htz, if_pos hne] at ht
        simp at ht
    have hch2 : headerChainLength bs2 = headerChainLength bs := by
      unfold headerChainLength
      rw [hsame 0 (by omega), hsame 1 (by omega)]
    have hec2 : headerElementsCount bs2 = headerElementsCount bs := by
      unfold headerElementsCount
      rw [hsame 2 (by omega), hsame 3 (by omega)]
    have hexp2 : expectedTableSize bs2 = expectedTableSize bs := by
      unfold expectedTableSize
      rw [hch2, hec2]
    have hge8 : 8 ≤ expectedTableSize bs := by
      have := chains_count_ge_two hnz hcl
      unfold expectedTableSize
      omega
    have hlen2 : ¬ bs2.length < 4 := by omega
    rw [Unicode2JisTable.new_eq, if_neg hlen2, if_pos (by rw [hch2]; exact htz),
      if_pos (by rw [hexp2]; omega)]

/-- C5 counterexample: the claim says construction never fails in any way
other than the two size errors, for any header contents including a zero
`chain_length` field.  On the blob `[0, 0, 0, 0]` — whose length 4 even
equals the claim's computed expectation
`4 + (0x10000 >> trailing_zeros(0)) * 2 + 0 * 4 = 4` — the code instead
hits the overflowing shift `0x10000 >> 32` and panics. -/
theorem Unicode2JisTable.new_zero_chain_panics :
    Unicode2JisTable.new [0, 0, 0, 0] = none
    ∧ ([0, 0, 0, 0] : List Nat).length =
        4 + (0x10000 >>> trailingZerosUsize (headerChainLength [0, 0, 0, 0])) * 2
          + headerElementsCount [0, 0, 0, 0] * 4 := by
  constructor
  · rfl
  · decide

/-- C5 witness: a well-formed blob with `chain_length = 0x8000` and no
elements parses, and appending one byte yields `IncorrectData`. -/
theorem Unicode2JisTable.new_size_checks_witness :
    (∃ t, Unicode2JisTable.new blob8 = some (Except.ok t))
    ∧ Unicode2JisTable.new [0, 128, 0, 0, 0, 0, 0, 0, 0]
        = some (Except.error Uni2JisTableError.incorrectData) :=
  ⟨((Unicode2JisTable.new_size_checks blob8 (by decide)).2.1 (by decide)
      (by decide)).2 (by decide),
   (Unicode2JisTable.new_size_checks blob8 (by decide)).2.2.2
      [0, 128, 0, 0, 0, 0, 0, 0, 0] (by decide) (Or.inl (by decide))
      ⟨t8, rfl⟩ (by decide)⟩

/-- C9: both the table query and the glyph-cache key truncate the character
to its low 16 bits (`c as u16` in the source), so any codepoint above
U+FFFF behaves exactly like the BMP codepoint `c % 2^16` in the lookup and
in the cache — supplementary-plane characters alias BMP characters. -/
theorem Unicode2JisTable.query_truncates_to_u16 {G : Type}
    (t : Unicode2JisTable) (bitmap : List Nat)
    (fetchG : List Nat → Nat × Nat → G) (cache : SimpleCacheMap Nat G) (c : Nat) :
    t.query c = t.query (c % 65536)
    ∧ JisFont.query t bitmap fetchG cache c
        = JisFont.query t bitmap fetchG cache (c % 65536) := by
  have hmod : c % 65536 % 65536 = c % 65536 := by omega
  constructor
  · unfold Unicode2JisTable.query
    rw [hmod]
  · unfold JisFont.query
    rw [hmod]
    unfold Unicode2JisTable.query
    rw [hmod]

lemma scanChain_eq_some {elems : List Nat} {c : Nat} :
    ∀ {fuel i p}, scanChain elems c i fuel = some p →
      ∃ k, k < fuel ∧ (∀ m, m < k → leU16 elems ((i + m) * 4) < c)
        ∧ leU16 elems ((i + k) * 4) = c
        ∧ p = (elems.getD ((i + k) * 4 + 2) 0, elems.getD ((i + k) * 4 + 3) 0) := by
  intro fuel
  induction fuel with
  | zero => intro i p h; simp [scanChain] at h
  | succ f ih =>
    intro i p h
    unfold scanChain at h
    by_cases hlt : leU16 elems (i * 4) < c
    · rw [if_pos hlt] at h
      obtain ⟨k, hk, hbelow, heq, hp⟩ := ih h
      refine ⟨k + 1, by omega, ?_, ?_, ?_⟩
      · intro m hm
        cases m with
        | zero => simpa using hlt
        | succ m' =>
          have := hbelow m' (by omega)
          have harith : i + 1 + m' = i + (m' + 1) := by omega
          rwa [harith] at this
      · have harith : i + 1 + k = i + (k + 1) := by omega
        rwa [harith] at heq
      · have harith : i + 1 + k = i + (k + 1) := by omega
        rwa [harith] at hp
    · rw [if_neg hlt] at h
      by_cases heq : c = leU16 elems (i * 4)
      · rw [if_pos heq] at h
        simp only [Option.some.injEq] at h
        exact ⟨0, by omega, by omega, by simpa using heq.symm, by simp [h.symm]⟩
      · rw [if_neg heq] at h
        simp at h

lemma scanChain_some_of_first {elems : List Nat} {c : Nat} :
    ∀ {k fuel i}, k < fuel → (∀ m, m < k → leU16 elems ((i + m) * 4) < c) →
      leU16 elems ((i + k) * 4) = c →
      scanChain elems c i fuel
        = some (elems.getD ((i + k) * 4 + 2) 0, elems.getD ((i + k) * 4 + 3) 0) := by
  intro k
  induction k with
  | zero =>
    intro fuel i hk _ heq
    cases fuel with
    | zero => omega
    | succ f =>
      unfold scanChain
      simp only [Nat.add_zero] at heq
      rw [if_neg (by omega), if_pos (by omega)]
      simp
  | succ k' ih =>
    intro fuel i hk hbelow heq
    cases fuel with
    | zero => omega
    | succ f =>
      unfold scanChain
      rw [if_pos (by simpa using hbelow 0 (by omega))]
      have hb2 : ∀ m, m < k' → leU16 elems ((i + 1 + m) * 4) < c := by
        intro m hm
        have := hbelow (m + 1) (by omega)
        have harith : i + (m + 1) = i + 1 + m := by omega
        rwa [harith] at this
      have he2 : leU16 elems ((i + 1 + k') * 4) = c := by
        have harith : i + (k' + 1) = i + 1 + k' := by omega
        rwa [harith] at heq
      have := @ih f (i + 1) (by omega) hb2 he2
      rw [this]
      have harith : i + 1 + k' = i + (k' + 1) := by omega
      rw [harith]

lemma scanChain_none_of_exceed {elems : List Nat} {c : Nat} :
    ∀ {k fuel i}, k < fuel → (∀ m, m < k → leU16 elems ((i + m) * 4) < c) →
      c < leU16 elems ((i + k) * 4) → scanChain elems c i fuel = none := by
  intro k
  induction k with
  | zero =>
    intro fuel i hk _ hgt
    cases fuel with
    | zero => omega
    | succ f =>
      unfold scanChain
      simp only [Nat.add_zero] at hgt
      rw [if_neg (by omega), if_neg (by omega)]
  | succ k' ih =>
    intro fuel i hk hbelow hgt
    cases fuel with
    | zero => omega
    | succ f =>
      unfold scanChain
      rw [if_pos (by simpa using hbelow 0 (by omega))]
      have hb2 : ∀ m, m < k' → leU16 elems ((i + 1 + m) * 4) < c := by
        intro m hm
        have := hbelow (m + 1) (by omega)
        have harith : i + (m + 1) = i + 1 + m := by omega
        rwa [harith] at this
      have hg2 : c < leU16 elems ((i + 1 + k') * 4) := by
        have harith : i + (k' + 1) = i + 1 + k' := by omega
        rwa [harith] at hgt
      exact @ih f (i + 1) (by omega) hb2 hg2

lemma scanChain_none_of_no_eq {elems : List Nat} {c : Nat} :
    ∀ {fuel i}, (∀ m, m < fuel → leU16 elems ((i + m) * 4) ≠ c) →
      scanChain elems c i fuel = none := by
  intro fuel
  induction fuel with
  | zero => intro i _; rfl
  | succ f ih =>
    intro i hne
    unfold scanChain
    by_cases hlt : leU16 elems (i * 4) < c
    · rw [if_pos hlt]
      apply ih
      intro m hm
      have := hne (m + 1) (by omega)
      have harith : i + (m + 1) = i + 1 + m := by omega
      rwa [harith] at this
    · rw [if_neg hlt]
      rw [if_neg ?_]
      intro hc
      exact hne 0 (by omega) (by simpa using hc.symm)

/-- C4: over the scanned bucket range `[chainStart, chainEnd)` — computed
from `c`'s low 16 bits shifted right by the span bit count, with the end
clamped at the next bucket boundary and at the element count — and with
the range's codepoints non-decreasing: any returned pair is the kuten of
an in-range element matching `c` that no earlier in-range element matches
(never an element outside the range); the first in-range match is
returned; a strictly larger element reached with all earlier scanned
elements smaller forces `None` (early exit); and if no in-range element
matches, the query is `None`. -/
theorem Unicode2JisTable.query_scan_correct (t : Unicode2JisTable) (c : Nat)
    (hs : ∀ j, j < t.chainEnd (c % 65536) → ∀ i, i < j + 1 →
      t.chainStart (c % 65536) ≤ i → t.elemChar i ≤ t.elemChar j) :
    (∀ p, t.query c = some p →
      ∃ i, t.chainStart (c % 65536) ≤ i ∧ i < t.chainEnd (c % 65536)
        ∧ t.elemChar i = c % 65536 ∧ p = t.elemKuten i
        ∧ ∀ j, t.chainStart (c % 65536) ≤ j → j < i → t.elemChar j ≠ c % 65536)
    ∧ (∀ i, t.chainStart (c % 65536) ≤ i → i < t.chainEnd (c % 65536) →
        t.elemChar i = c % 65536 →
        (∀ j, t.chainStart (c % 65536) ≤ j → j < i → t.elemChar j ≠ c % 65536) →
        t.query c = some (t.elemKuten i))
    ∧ (∀ i, t.chainStart (c % 65536) ≤ i → i < t.chainEnd (c % 65536) →
        (∀ j, t.chainStart (c % 65536) ≤ j → j < i → t.elemChar j < c % 65536) →
        c % 65536 < t.elemChar i → t.query c = none)
    ∧ ((∀ i, t.chainStart (c % 65536) ≤ i → i < t.chainEnd (c % 65536) →
        t.elemChar i ≠ c % 65536) → t.query c = none) := by
  obtain ⟨S, hS⟩ : ∃ S, t.chainStart (c % 65536) = S := ⟨_, rfl⟩
  obtain ⟨E, hE⟩ : ∃ E, t.chainEnd (c % 65536) = E := ⟨_, rfl⟩
  rw [hS, hE] at hs
  rw [hS, hE]
  have hquery : t.query c = scanChain t.table_elements (c % 65536) S (E - S) := by
    rw [← hS, ← hE]
    rfl
  refine ⟨?_, ?_, ?_, ?_⟩
  · intro p hp
    rw [hquery] at hp
    obtain ⟨k, hk, hbelow, heq, hpv⟩ := scanChain_eq_some hp
    refine ⟨S + k, by omega, by omega, heq, hpv, ?_⟩
    intro j hj1 hj2
    have := hbelow (j - S) (by omega)
    have harith : S + (j - S) = j := by omega
    rw [harith] at this
    unfold Unicode2JisTable.elemChar
    omega
  · intro i hi1 hi2 heq hne
    rw [hquery]
    have hk : i - S < E - S := by omega
    have hbelow : ∀ m, m < i - S → leU16 t.table_elements ((S + m) * 4) < c % 65536 := by
      intro m hm
      have hle : t.elemChar (S + m) ≤ t.elemChar i := by
        apply hs i (by omega) (S + m) (by omega) (by omega)
      have hneq : t.elemChar (S + m) ≠ c % 65536 := hne (S + m) (by omega) (by omega)
      unfold Unicode2JisTable.elemChar at hle hneq
      unfold Unicode2JisTable.elemChar at heq
      omega
    have hrun := @scanChain_some_of_first t.table_elements (c % 65536) (i - S) (E - S) S
      hk hbelow
      (by have harith : S + (i - S) = i := by omega
          rw [harith]; exact heq)
    rw [hrun]
    have harith : S + (i - S) = i := by omega
    rw [harith]
    rfl
  · intro i hi1 hi2 hbelow hgt
    rw [hquery]
    apply scanChain_none_of_exceed (k := i - S) (by omega)
    · intro m hm
      have := hbelow (S + m) (by omega) (by omega)
      unfold Unicode2JisTable.elemChar at this
      exact this
    · have harith : S + (i - S) = i := by omega
      rw [harith]
      exact hgt
  · intro hne
    rw [hquery]
    apply scanChain_none_of_no_eq
    intro m hm
    have := hne (S + m) (by omega) (by omega)
    unfold Unicode2JisTable.elemChar at this
    exact this

/-- C4 witness: the two-element table `t16` is sorted on the bucket of
U+0041, whose query returns kuten (1,1) as the first (and only) match. -/
theorem Unicode2JisTable.query_scan_correct_witness :
    t16.query 65 = some (t16.elemKuten 0)
    ∧ (65 : Nat) % 65536 = 65 :=
  ⟨(Unicode2JisTable.query_scan_correct t16 65 (by decide)).2.1 0 (by decide)
      (by decide) (by decide) (fun j h1 h2 => by omega),
   by decide⟩

lemma Unicode2JisTable.new_ok_inversion {bs : List Nat} {t : Unicode2JisTable}
    (h : Unicode2JisTable.new bs = some (Except.ok t)) :
    t = parsedTable bs ∧ ¬ bs.length < 4
      ∧ trailingZerosUsize (headerChainLength bs) < 32
      ∧ bs.length = expectedTableSize bs := by
  rw [Unicode2JisTable.new_eq] at h
  by_cases h4 : bs.length < 4
  · rw [if_pos h4] at h
    simp at h
  · rw [if_neg h4] at h
    by_cases htz : trailingZerosUsize (headerChainLength bs) < 32
    · rw [if_pos htz] at h
      by_cases hsz : bs.length ≠ expectedTableSize bs
      · rw [if_pos hsz] at h
        simp at h
      · rw [if_neg hsz] at h
        simp only [Option.some.injEq, Except.ok.injEq] at h
        push_neg at hsz
        exact ⟨h.symm, h4, htz, hsz⟩
    · rw [if_neg htz] at h
      simp at h

lemma tzAux_two_pow : ∀ k fuel, k < fuel → tzAux fuel (2 ^ k) = k := by
  intro k
  induction k with
  | zero =>
    intro fuel hk
    cases fuel with
    | zero => omega
    | succ f => simp [tzAux]
  | succ k' ih =>
    intro fuel hk
    cases fuel with
    | zero => omega
    | succ f =>
      have hpow : (2 : Nat) ^ (k' + 1) = 2 * 2 ^ k' := by ring
      have heven : (2 : Nat) ^ (k' + 1) % 2 = 0 := by omega
      unfold tzAux
      rw [if_neg (by omega)]
      have hdiv : (2 : Nat) ^ (k' + 1) / 2 = 2 ^ k' := by omega
      rw [hdiv, ih f (by omega)]

lemma scanChainChecked_eq_scanChain {elems : List Nat} {c : Nat} :
    ∀ {fuel i}, (fuel = 0 ∨ (i + fuel) * 4 ≤ elems.length) →
      scanChainChecked elems c i fuel = some (scanChain elems c i fuel) := by
  intro fuel
  induction fuel with
  | zero => intro i _; rfl
  | succ f ih =>
    intro i hb
    have hbound : (i + (f + 1)) * 4 ≤ elems.length := by
      rcases hb with h0 | h
      · omega
      · exact h
    unfold scanChainChecked scanChain
    rw [if_pos (by omega)]
    by_cases hlt : leU16 elems (i * 4) < c
    · rw [if_pos hlt, if_pos hlt]
      apply ih
      right
      have harith : i + 1 + f = i + (f + 1) := by omega
      rw [harith]
      exact hbound
    · rw [if_neg hlt, if_neg hlt]
      by_cases heq : c = leU16 elems (i * 4)
      · rw [if_pos heq, if_pos heq]
      · rw [if_neg heq, if_neg heq]

/-- C10: for any table accepted by construction from byte input whose
header `chain_length` is a (nonzero) power of two, every query touches the
bucket and element arrays only in bounds: the bucket index read is inside
`chain_indices`, every scanned element record is inside `table_elements`
(so the checked query equals the unchecked one without panicking), and a
bucket whose stored start offset is at or beyond the element count yields
an empty scan returning `None`. -/
theorem Unicode2JisTable.query_in_bounds (bs : List Nat) (t : Unicode2JisTable)
    (c : Nat) (hb : ∀ b ∈ bs, b < 256)
    (ht : Unicode2JisTable.new bs = some (Except.ok t))
    (hpow : ∃ k, headerChainLength bs = 2 ^ k) :
    t.queryChecked c = some (t.query c)
    ∧ (t.elements_count ≤ t.chainStart (c % 65536) → t.query c = none) := by
  obtain ⟨hteq, h4, htz, hsz⟩ := Unicode2JisTable.new_ok_inversion ht
  obtain ⟨k, hk⟩ := hpow
  have hclnz : headerChainLength bs ≠ 0 := by
    rw [hk]
    exact (Nat.pos_pow_of_pos k (by norm_num)).ne' 
  have hcl : headerChainLength bs < 65536 := headerChainLength_lt hb
  have hk16 : k < 16 := by
    by_contra hge
    push_neg at hge
    have : (2 : Nat) ^ 16 ≤ 2 ^ k := Nat.pow_le_pow_right (by norm_num) hge
    rw [← hk] at this
    norm_num at this
    omega
  have hbit : t.chain_length_bit = k := by
    rw [hteq]
    show trailingZerosUsize (headerChainLength bs) = k
    rw [hk]
    exact tzAux_two_pow k 32 (by omega)
  have hccount : 0x10000 >>> trailingZerosUsize (headerChainLength bs) = 2 ^ (16 - k) := by
    rw [hk]
    rw [show trailingZerosUsize (2 ^ k) = k from tzAux_two_pow k 32 (by omega)]
    rw [Nat.shiftRight_eq_div_pow]
    have h65536 : (0x10000 : Nat) = 2 ^ 16 := by norm_num
    rw [h65536, Nat.pow_div (by omega) (by norm_num)]
  have hcilen : t.chain_indices.length = 2 ^ (16 - k) * 2 := by
    rw [hteq]
    show ((bs.drop 4).take ((0x10000 >>> trailingZerosUsize (headerChainLength bs)) * 2)).length
      = 2 ^ (16 - k) * 2
    rw [List.length_take, List.length_drop, hccount]
    unfold expectedTableSize at hsz
    rw [hccount] at hsz
    omega
  have htelen : t.table_elements.length = headerElementsCount bs * 4 := by
    rw [hteq]
    show (bs.drop (4 + (0x10000 >>> trailingZerosUsize (headerChainLength bs)) * 2)).length
      = headerElementsCount bs * 4
    rw [List.length_drop]
    unfold expectedTableSize at hsz
    omega
  have hec : t.elements_count = headerElementsCount bs := by
    rw [hteq]
    rfl
  have hchain : (c % 65536) >>> t.chain_length_bit < 2 ^ (16 - k) := by
    rw [hbit, Nat.shiftRight_eq_div_pow]
    apply Nat.div_lt_of_lt_mul
    calc c % 65536 < 65536 := Nat.mod_lt c (by norm_num)
      _ = 2 ^ k * 2 ^ (16 - k) := by
          rw [← pow_add]
          have hsum : k + (16 - k) = 16 := by omega
          rw [hsum]
          norm_num
  have hguard : ((c % 65536) >>> t.chain_length_bit) * 2 + 1 < t.chain_indices.length := by
    rw [hcilen]
    omega
  have hredC : t.queryChecked c =
      scanChainChecked t.table_elements (c % 65536) (t.chainStart (c % 65536))
        (t.chainEnd (c % 65536) - t.chainStart (c % 65536)) := by
    show (if ((c % 65536) >>> t.chain_length_bit) * 2 + 1 < t.chain_indices.length then
        scanChainChecked t.table_elements (c % 65536) (t.chainStart (c % 65536))
          (t.chainEnd (c % 65536) - t.chainStart (c % 65536))
      else none) = _
    rw [if_pos hguard]
  have hredQ : t.query c =
      scanChain t.table_elements (c % 65536) (t.chainStart (c % 65536))
        (t.chainEnd (c % 65536) - t.chainStart (c % 65536)) := rfl
  constructor
  · rw [hredC, hredQ]
    apply scanChainChecked_eq_scanChain
    by_cases hse : t.chainEnd (c % 65536) ≤ t.chainStart (c % 65536)
    · left
      omega
    · right
      push_neg at hse
      have hEle : t.chainEnd (c % 65536) ≤ t.elements_count := Nat.min_le_right _ _
      rw [htelen] at *
      have harith : t.chainStart (c % 65536)
          + (t.chainEnd (c % 65536) - t.chainStart (c % 65536))
          = t.chainEnd (c % 65536) := by omega
      rw [harith]
      rw [hec] at hEle
      omega
  · intro hbeyond
    rw [hredQ]
    have hE : t.chainEnd (c % 65536) ≤ t.chainStart (c % 65536) :=
      le_trans (Nat.min_le_right _ _) hbeyond
    have h0 : t.chainEnd (c % 65536) - t.chainStart (c % 65536) = 0 := by omega
    rw [h0]
    rfl

/-- C10 witness: the empty-element table from `blob8` (chain span
`0x8000 = 2^15`) is queried in bounds at U+0041 and returns `None` through
its empty bucket. -/
theorem Unicode2JisTable.query_in_bounds_witness :
    t8.queryChecked 65 = some (t8.query 65) ∧ t8.query 65 = none :=
  ⟨(Unicode2JisTable.query_in_bounds blob8 t8 65 (by decide) rfl ⟨15, by decide⟩).1,
   (Unicode2JisTable.query_in_bounds blob8 t8 65 (by decide) rfl ⟨15, by decide⟩).2
      (by decide)⟩

lemma getD_drop_take (l : List Nat) (n k i : Nat) (hik : i < k) :
    ((l.drop n).take k).getD i 0 = l.getD (n + i) 0 := by
  rw [List.getD_eq_get?, List.getD_eq_get?]
  rw [List.get?_take hik, List.get?_drop]

/-- C8: for the 8×12 format (12 bytes per glyph) and kuten coordinates in
`[1, 94] × [1, 94]`, `fetch` copies exactly the 12-byte range starting at
`((ku-1)*94 + (ten-1)) * 12` of a validated bitmap, entirely in bounds;
an all-`z` bitmap yields the glyph `replicate 12 z` at kuten (1,1); and
kuten (94,94) reads exactly the last 12-byte region. -/
theorem JisFont8x12.fetch_range (bitmap : List Nat) (ku ten : Nat)
    (hv : JisFont8x12.validate_bitmap bitmap = true)
    (hku1 : 1 ≤ ku) (hku2 : ku ≤ 94) (hten1 : 1 ≤ ten) (hten2 : ten ≤ 94) :
    (((ku - 1) * 94 + (ten - 1)) * 12 + 12 ≤ bitmap.length)
    ∧ JisFont8x12.fetch bitmap (ku, ten)
        = some ((bitmap.drop (((ku - 1) * 94 + (ten - 1)) * 12)).take 12)
    ∧ (∃ g, JisFont8x12.fetch bitmap (ku, ten) = some g ∧ g.length = 12
        ∧ ∀ i, i < 12 → g.getD i 0 = bitmap.getD (((ku - 1) * 94 + (ten - 1)) * 12 + i) 0)
    ∧ (∀ z, bitmap = List.replicate (94 * 94 * 12) z →
        JisFont8x12.fetch bitmap (1, 1) = some (List.replicate 12 z))
    ∧ (ku = 94 → ten = 94 → ((ku - 1) * 94 + (ten - 1)) * 12 + 12 = bitmap.length) := by
  have hlen : bitmap.length = 94 * 94 * 12 := by
    simp only [JisFont8x12.validate_bitmap, JIS_KUTEN_WIDTH, beq_iff_eq] at hv
    exact hv
  have hbound : ((ku - 1) * 94 + (ten - 1)) * 12 + 12 ≤ bitmap.length := by
    have h1 : ku - 1 ≤ 93 := by omega
    have h2 : ten - 1 ≤ 93 := by omega
    have h3 : (ku - 1) * 94 ≤ 93 * 94 := Nat.mul_le_mul_right 94 h1
    omega
  have hfetch : JisFont8x12.fetch bitmap (ku, ten)
      = some ((bitmap.drop (((ku - 1) * 94 + (ten - 1)) * 12)).take 12) := by
    simp only [JisFont8x12.fetch, JIS_KUTEN_WIDTH]
    rw [if_pos (by omega)]
  refine ⟨hbound, hfetch, ?_, ?_, ?_⟩
  · refine ⟨(bitmap.drop (((ku - 1) * 94 + (ten - 1)) * 12)).take 12, hfetch, ?_, ?_⟩
    · rw [List.length_take, List.length_drop]
      omega
    · intro i hi
      exact getD_drop_take bitmap _ 12 i hi
  · intro z hz
    subst hz
    simp only [JisFont8x12.fetch, JIS_KUTEN_WIDTH]
    rw [if_pos (by simp only [List.length_replicate]; omega)]
    norm_num
  · intro h94k h94t
    subst h94k
    subst h94t
    omega

/-- C8 witness: fetching kuten (1,1) from the all-zero validated bitmap. -/
theorem JisFont8x12.fetch_range_witness :
    ((1 - 1) * 94 + (1 - 1)) * 12 + 12 ≤ (List.replicate (94 * 94 * 12) (0 : Nat)).length
    ∧ JisFont8x12.fetch (List.replicate (94 * 94 * 12) (0 : Nat)) (1, 1)
        = some (List.replicate 12 0) :=
  ⟨(JisFont8x12.fetch_range (List.replicate (94 * 94 * 12) 0) 1 1
      (by simp only [JisFont8x12.validate_bitmap, JIS_KUTEN_WIDTH,
        List.length_replicate, beq_iff_eq])
      (by decide) (by decide) (by decide) (by decide)).1,
   (JisFont8x12.fetch_range (List.replicate (94 * 94 * 12) 0) 1 1
      (by simp only [JisFont8x12.validate_bitmap, JIS_KUTEN_WIDTH,
        List.length_replicate, beq_iff_eq])
      (by decide) (by decide) (by decide) (by decide)).2.2.2.1 0 rfl⟩

lemma splitNl_ne_nil : ∀ s : List Char, splitNl s ≠ [] := by
  intro s
  cases s with
  | nil => simp [splitNl]
  | cons c rest =>
    unfold splitNl
    by_cases hc : c = '\n'
    · simp [hc]
    · simp only [hc, if_false]
      cases splitNl rest with
      | nil => simp
      | cons p ps => simp

lemma splitNl_no_nl : ∀ s : List Char, '\n' ∉ s → splitNl s = [s] := by
  intro s
  induction s with
  | nil => intro _; rfl
  | cons c rest ih =>
    intro hnn
    have hc : c ≠ '\n' := by
      intro hc
      exact hnn (by rw [hc]; exact List.mem_cons_self _ _)
    have hrest : '\n' ∉ rest := fun hm => hnn (List.mem_cons_of_mem _ hm)
    unfold splitNl
    rw [ih hrest]
    simp [hc]

lemma splitNl_append_nl : ∀ s1 s2 : List Char, '\n' ∉ s1 →
    splitNl (s1 ++ '\n' :: s2) = s1 :: splitNl s2 := by
  intro s1
  induction s1 with
  | nil =>
    intro s2 _
    simp [splitNl]
  | cons c rest ih =>
    intro s2 hnn
    have hc : c ≠ '\n' := by
      intro hc
      exact hnn (by rw [hc]; exact List.mem_cons_self _ _)
    have hrest : '\n' ∉ rest := fun hm => hnn (List.mem_cons_of_mem _ hm)
    show splitNl (c :: (rest ++ '\n' :: s2)) = (c :: rest) :: splitNl s2
    conv_lhs => rw [splitNl]
    rw [ih s2 hrest]
    simp [hc]

lemma mem_of_getLast?_eq : ∀ {l : List Char} {a : Char}, l.getLast? = some a → a ∈ l := by
  intro l
  induction l with
  | nil => intro a h; simp at h
  | cons c rest ih =>
    intro a h
    cases rest with
    | nil =>
      simp [List.getLast?] at h
      simp [h]
    | cons d t =>
      have : (d :: t).getLast? = some a := by
        rw [← h]
        rfl
      exact List.mem_cons_of_mem _ (ih this)

lemma stripCR_of_no_cr {s : List Char} (h : '\r' ∉ s) : stripCR s = s := by
  unfold stripCR
  by_cases hl : s.getLast? = some '\r'
  · exact absurd (mem_of_getLast?_eq hl) h
  · rw [if_neg hl]

lemma rustLines_no_nl {s : List Char} (hnn : '\n' ∉ s) (hne : s ≠ []) :
    rustLines s = [s] := by
  unfold rustLines
  rw [splitNl_no_nl s hnn]
  simp only [List.dropLast_single, List.map_nil, List.getLast?_singleton]
  cases s with
  | nil => exact absurd rfl hne
  | cons c rest => simp

lemma getLast?_cons_cons {α : Type} (a b : α) (l : List α) :
    (a :: b :: l).getLast? = (b :: l).getLast? := rfl

lemma rustLines_append_nl {s1 : List Char} (s2 : List Char) (hnn : '\n' ∉ s1) :
    rustLines (s1 ++ '\n' :: s2) = stripCR s1 :: rustLines s2 := by
  unfold rustLines
  rw [splitNl_append_nl s1 s2 hnn]
  cases hsp : splitNl s2 with
  | nil => exact absurd hsp (splitNl_ne_nil s2)
  | cons p ps =>
    simp only [List.dropLast_cons_of_ne_nil (by simp : p :: ps ≠ ([] : List (List Char))),
      List.map_cons, getLast?_cons_cons]
    cases hL : (p :: ps).getLast? with
    | none => rfl
    | some last =>
      cases last with
      | nil => rfl
      | cons x xs => rfl

lemma JisTextDirect.writeLines_append {G σ : Type} (W H : Nat)
    (q : σ → Char → Option (Option G × σ)) (wrap : Option Nat) (ox oy : Int) :
    ∀ (l1 l2 : List (List Char)) (st : DirectState G σ),
      JisTextDirect.writeLines W H q wrap ox oy (l1 ++ l2) st
        = (JisTextDirect.writeLines W H q wrap ox oy l1 st).bind
            (JisTextDirect.writeLines W H q wrap ox oy l2) := by
  intro l1
  induction l1 with
  | nil => intro l2 st; rfl
  | cons line rest ih =>
    intro l2 st
    cases hwc : JisTextDirect.writeChars W H q wrap ox oy line st with
    | none =>
      simp only [List.cons_append, JisTextDirect.writeLines, hwc]
      rfl
    | some s1 =>
      simp only [List.cons_append, JisTextDirect.writeLines, hwc]
      exact ih l2 _

/-- C2 counterexample: with an always-hitting 8×12 glyph query and no
wrapping, writing "A" then "B" in two `write_str` calls draws B at
(0, 12) and ends with `rely = 24`, while the single call "AB" draws B at
(8, 0) and ends with `rely = 12` — splitting a line-break-free string
across two calls does not reproduce the single call's glyph positions or
cursor state. -/
theorem JisTextDirect.write_str_split_ne :
    (JisTextDirect.write_str 8 12 unitQ none 0 0 ['A'] d0).bind
        (JisTextDirect.write_str 8 12 unitQ none 0 0 ['B'])
      = some (DirectState.mk () 0 24 0 [((), 0, 0), ((), 0, 12)])
    ∧ JisTextDirect.write_str 8 12 unitQ none 0 0 ['A', 'B'] d0
      = some (DirectState.mk () 0 12 0 [((), 0, 0), ((), 8, 0)])
    ∧ (JisTextDirect.write_str 8 12 unitQ none 0 0 ['A'] d0).bind
        (JisTextDirect.write_str 8 12 unitQ none 0 0 ['B'])
      ≠ JisTextDirect.write_str 8 12 unitQ none 0 0 ['A', 'B'] d0 := by
  refine ⟨by decide, by decide, by decide⟩

/-- C2 (amended): the streaming layout state is held across `write_str`
calls, but every call closes its final line (`relx := 0`,
`rely += HEIGHT`, wrap counter reset, even with no trailing line break),
so two consecutive calls compose exactly like one call with an explicit
line break between the two fragments. -/
theorem JisTextDirect.write_str_split_line_break {G σ : Type} (W H : Nat)
    (q : σ → Char → Option (Option G × σ)) (wrap : Option Nat) (ox oy : Int)
    (s1 s2 : List Char) (st : DirectState G σ)
    (h1n : '\n' ∉ s1) (h1r : '\r' ∉ s1) (hne : s1 ≠ []) :
    (JisTextDirect.write_str W H q wrap ox oy s1 st).bind
        (JisTextDirect.write_str W H q wrap ox oy s2)
      = JisTextDirect.write_str W H q wrap ox oy (s1 ++ '\n' :: s2) st := by
  unfold JisTextDirect.write_str
  rw [rustLines_append_nl s2 h1n, stripCR_of_no_cr h1r, rustLines_no_nl h1n hne]
  have hsplit := JisTextDirect.writeLines_append W H q wrap ox oy [s1] (rustLines s2) st
  simp only [List.singleton_append] at hsplit
  rw [hsplit]

/-- C2 amended-theorem witness: "A" then "B" equals the single call
"A\nB". -/
theorem JisTextDirect.write_str_split_line_break_witness :
    (JisTextDirect.write_str 8 12 unitQ none 0 0 ['A'] d0).bind
        (JisTextDirect.write_str 8 12 unitQ none 0 0 ['B'])
      = JisTextDirect.write_str 8 12 unitQ none 0 0 ['A', '\n', 'B'] d0 :=
  JisTextDirect.write_str_split_line_break 8 12 unitQ none 0 0 ['A'] ['B'] d0
    (by decide) (by decide) (by decide)

/-- C3: with an 8×12 glyph format and every character mapping to a glyph,
laying out "AB\nCDE" with no wrap width returns the bounding box
`(24, 24)`; with wrap width 2 the height is 48, because the wrap counter
is reset independently at each explicit line break. -/
theorem JisText.draw_two_line_bbox {G σ : Type} (q : σ → Char → Option (Option G × σ))
    (st : σ) (ox oy : Int)
    (hq : ∀ s c, ∃ g s2, q s c = some (some g, s2)) :
    (∃ d fs, JisText.draw 8 12 q none ox oy (String.toList "AB\nCDE") st
        = some ((24, 24), d, fs))
    ∧ (∃ w d fs, JisText.draw 8 12 q (some 2) ox oy (String.toList "AB\nCDE") st
        = some ((w, 48), d, fs)) := by
  obtain ⟨gA, sA, hA⟩ := hq st 'A'
  obtain ⟨gB, sB, hB⟩ := hq sA 'B'
  obtain ⟨gC, sC, hC⟩ := hq sB 'C'
  obtain ⟨gD, sD, hD⟩ := hq sC 'D'
  obtain ⟨gE, sE, hE⟩ := hq sD 'E'
  have htext : rustLines (String.toList "AB\nCDE") = [['A', 'B'], ['C', 'D', 'E']] := by
    decide
  constructor
  · have hrun : JisText.draw 8 12 q none ox oy (String.toList "AB\nCDE") st
        = some ((24, 24),
            [(gA, ox, oy), (gB, ox + 8, oy), (gC, ox, oy + 12), (gD, ox + 8, oy + 12),
             (gE, ox + 16, oy + 12)], sE) := by
      simp [JisText.draw, htext, JisText.drawLines, JisText.drawChars, hA, hB, hC, hD, hE]
    exact ⟨_, _, hrun⟩
  · have hrun : JisText.draw 8 12 q (some 2) ox oy (String.toList "AB\nCDE") st
        = some ((16, 48),
            [(gA, ox, oy), (gB, ox + 8, oy), (gC, ox, oy + 24), (gD, ox + 8, oy + 24),
             (gE, ox, oy + 36)], sE) := by
      simp [JisText.draw, htext, JisText.drawLines, JisText.drawChars, hA, hB, hC, hD, hE]
    exact ⟨16, _, _, hrun⟩

/-- C3 witness: the always-hitting trivial query at offset (0,0). -/
theorem JisText.draw_two_line_bbox_witness :
    (∃ d fs, JisText.draw 8 12 unitQ none 0 0 (String.toList "AB\nCDE") ()
        = some ((24, 24), d, fs))
    ∧ (∃ w d fs, JisText.draw 8 12 unitQ (some 2) 0 0 (String.toList "AB\nCDE") ()
        = some ((w, 48), d, fs)) :=
  JisText.draw_two_line_bbox unitQ () 0 0 (fun _ _ => ⟨(), (), rfl⟩)

/-- C7: a per-character lookup miss is never an error: when the font query
yields no glyph, the character is skipped — nothing is drawn, the cursor
does not advance, the remaining characters are processed (first
conjunct, for any format, query, wrap and state).  Concretely, drawing
"A\u{10FFFF}B" through the real cache-and-table query over `t16` (which
lacks an entry at the truncated codepoint U+FFFF) draws exactly the two
glyphs for A and B, at x = 0 and x = 8. -/
theorem JisText.draw_skips_unmapped :
    (∀ (G σ : Type) (W H : Nat) (q : σ → Char → Option (Option G × σ))
      (wrap : Option Nat) (ox oy : Int) (ch : Char) (rest : List Char)
      (s : TextLayoutState G σ) (fs : σ),
      q s.fontSt ch = some (none, fs) →
      JisText.drawChars W H q wrap ox oy (ch :: rest) s
        = JisText.drawChars W H q wrap ox oy rest { s with fontSt := fs })
    ∧ JisText.draw 8 12
        (fun cache ch => JisFont.query t16 [] (fun _ kt => kt) cache ch.toNat)
        none 0 0 ['A', Char.ofNat 0x10FFFF, 'B']
        (SimpleCacheMap.new 0 ((0 : Nat), (0 : Nat)) 4)
      = some ((16, 12), [((1, 1), 0, 0), ((1, 2), 8, 0)],
          SimpleCacheMap.mk [(65, 0), (66, 1)]
            [(65, (1, 1)), (66, (1, 2)), (0, (0, 0)), (0, (0, 0))] 2 4) := by
  constructor
  · intro G σ W H q wrap ox oy ch rest s fs hmiss
    conv_lhs => rw [JisText.drawChars]
    rw [hmiss]
  · rfl

/-- C7 witness: a concrete skipped character under the always-missing
query leaves the layout state unchanged apart from the font state. -/
theorem JisText.draw_skips_unmapped_witness :
    JisText.drawChars 8 12 unitMissQ none 0 0 ['X']
        (TextLayoutState.mk () 0 0 0 0 [])
      = JisText.drawChars 8 12 unitMissQ none 0 0 []
          (TextLayoutState.mk () 0 0 0 0 []) :=
  JisText.draw_skips_unmapped.1 Unit Unit 8 12 unitMissQ none 0 0 'X' []
    (TextLayoutState.mk () 0 0 0 0 []) () rfl
